import Mathlib

/-!
# Word-frequency benchmark: tokenising, merging, ranking

A shallow embedding of `FileProcessCode.cpp` and `ProcessingData.cpp`.

* A `char` is a byte, modelled by its value as a natural number; a
  `std::string` is a list of bytes.  A buffer is the byte sequence the
  `std::ifstream` delivers.  The program never calls `setlocale`, so `isalpha`
  and `tolower` are those of the "C" locale: the letters are the ASCII letters,
  and every other value is not a letter.
* A `std::unordered_map<std::string, int>` is the list of its entries in
  iteration order, with pairwise distinct keys (`WordMap.wf`).  The position a
  new key takes in the iteration order is decided by the hash table; the model
  appends it.  The general theorems do not depend on that choice: the
  statements about maps are about lookups and sizes, and the statements about
  `top_n_frequent_words` hold for every iteration order.  Only the
  evaluations at concrete inputs show the entries in the order of the model.
* The `int` counters are modelled by unbounded naturals: signed overflow is
  undefined in C++ and needs more than `2^31` tokens in one file.
* The operating system (file contents, success of `CreateThread`,
  `CreatePipe`, `WriteFile` and `ReadFile`, and the order in which the workers
  take the mutex) is a record of oracles `Sys`, read at the value of a clock
  that counts the system calls of the run.
* The workers of one file scan their own segments into private local maps and
  commit them under `count_mutex`; `WaitForMultipleObjects` returns when all
  four have committed.  The map is therefore the result of the four merges
  taken one after the other in the order the workers took the mutex.
-/

namespace WordFreq

/-! ## Bytes and strings -/

/-- One `char`, by its value. -/
abbrev Byte := Nat

/-- A `std::string`. -/
abbrev Word := List Byte

/-- The bytes of an ASCII string literal. -/
def str (s : String) : List Byte := s.toList.map Char.toNat

/-- `isalpha` in the "C" locale: `A`-`Z` and `a`-`z`. -/
def isalpha (ch : Byte) : Bool := (65 ≤ ch && ch ≤ 90) || (97 ≤ ch && ch ≤ 122)

/-- `tolower` in the "C" locale: `A`-`Z` go to `a`-`z`, every other value is kept. -/
def tolower (ch : Byte) : Byte := if 65 ≤ ch ∧ ch ≤ 90 then ch + 32 else ch

/-! ## `std::unordered_map<std::string, int>` -/

/-- The entries of a map, in iteration order. -/
abbrev WordMap := List (Word × Nat)

namespace WordMap

/-- The keys of a map, in iteration order. -/
def keys (m : WordMap) : List Word := m.map Prod.fst

/-- The invariant of a map: no key occurs twice. -/
def wf (m : WordMap) : Prop := (keys m).Nodup

instance (m : WordMap) : Decidable (wf m) := by unfold wf; infer_instance

/-- The value stored under `w`, if `w` is a key (`find`). -/
def find (m : WordMap) (w : Word) : Option Nat :=
  match m with
  | [] => none
  | (k, v) :: rest => if k = w then some v else find rest w

/-- The count of `w`: the stored value, or 0 when `w` is not a key. -/
def count (m : WordMap) (w : Word) : Nat := (find m w).getD 0

/-- The statement `m[w] += c`: `operator[]` inserts `w` with value 0 when it is
absent, then `c` is added to the stored value. -/
def add (m : WordMap) (w : Word) (c : Nat) : WordMap :=
  match m with
  | [] => [(w, 0 + c)]
  | (k, v) :: rest => if k = w then (k, v + c) :: rest else (k, v) :: add rest w c

/-- The statement `++m[w]`. -/
def incr (m : WordMap) (w : Word) : WordMap := add m w 1

/-- Two maps with the same contents: the same keys, and the same value under
each key.  The iteration order is not compared. -/
def same (m₁ m₂ : WordMap) : Prop := ∀ w, find m₁ w = find m₂ w

end WordMap

/-! ## `word_count_thread`: the scan and the merge -/

/-- The loop state of the scan: `current_word` and `local_map`. -/
structure Scan where
  current_word : Word
  local_map : WordMap
deriving DecidableEq, Repr

/-- One iteration of the loop `for (char ch : *segment)` (lines 33-41). -/
def scan_step (st : Scan) (ch : Byte) : Scan :=
  if isalpha ch then
    { st with current_word := st.current_word ++ [tolower ch] }
  else if st.current_word ≠ [] then
    { current_word := [], local_map := st.local_map.incr st.current_word }
  else st

/-- The statement after the loop (lines 42-44): a word still in progress at the
end of the segment is counted. -/
def flush (st : Scan) : WordMap :=
  if st.current_word ≠ [] then st.local_map.incr st.current_word else st.local_map

/-- The scan of `word_count_thread` (lines 30-44): the loop over the segment,
then the flush. -/
def local_count (segment : List Byte) : WordMap :=
  flush (segment.foldl scan_step { current_word := [], local_map := [] })

/-- The merge loop of `word_count_thread` (lines 48-50):
`(*global_map)[entry.first] += entry.second` for each entry of the local map. -/
def merge (global_map local_map : WordMap) : WordMap :=
  local_map.foldl (fun g entry => g.add entry.1 entry.2) global_map

/-- `word_count_thread` (lines 26-53), as its effect on `*global_map`: the
segment is scanned into the local map, which is then merged into the global
map inside the critical section. -/
def word_count_thread (segment : List Byte) (global_map : WordMap) : WordMap :=
  merge global_map (local_count segment)

/-! ## The operating system -/

/-- A file path. -/
abbrev Path := String

/-- The ways a run stops without returning. -/
inductive Halt where
  /-- The call `exit(status)`. -/
  | exit (status : Nat)
  /-- The exception `std::out_of_range` of `substr`, which nothing catches. -/
  | out_of_range
  /-- The call `ReadFile` on an empty pipe whose write end is open: it waits for ever. -/
  | blocked
deriving DecidableEq, Repr

/-- `NUM_THREADS`. -/
def NUM_THREADS : Nat := 4

/-- The order in which the workers of one file take `count_mutex`: a
permutation of the worker indices `0 .. NUM_THREADS - 1`. -/
abbrev Schedule := { order : List Nat // order.Perm (List.range NUM_THREADS) }

/-- What the operating system does during one run of the program.  A run
carries a clock that counts its system calls; the oracles are read at the
clock value of the call. -/
structure Sys where
  /-- The bytes `std::ifstream` delivers for a path; `none` when the file cannot be opened. -/
  file : Path → Option (List Byte)
  /-- Whether the system call made at clock value `t` (`CreateThread`,
  `CreatePipe`, `WriteFile`, `ReadFile`) succeeds. -/
  ok : Nat → Bool
  /-- The order in which the workers waited for at clock value `t` took the mutex. -/
  schedule : Nat → Schedule

/-! ## `word_count_single_thread` -/

/-- `word_count_single_thread` (lines 56-76 of `FileProcessCode.cpp`).  The loop
body is, up to the names `word` and `word_map`, the loop body of
`word_count_thread`, so `scan_step` is reused; `word_map` is returned right
after the loop. -/
def word_count_single_thread (sys : Sys) (filepath : Path) : WordMap :=
  match sys.file filepath with
  | none => []
  | some text => (text.foldl scan_step { current_word := [], local_map := [] }).local_map

/-! ## `word_count_multi_thread` -/

/-- `content.substr(pos, n)`: the bytes from position `pos` on, at most `n` of
them; throws `std::out_of_range` when `pos > size()`. -/
def substr (content : List Byte) (pos n : Nat) : Option (List Byte) :=
  if pos > content.length then none else some ((content.drop pos).take n)

/-- The loop that cuts the segments and starts the workers (lines 93-101),
run for the indices `is` from clock value `t`: segment `i` is
`content.substr(i * segment_size, segment_size)`, then `CreateThread` is
called and a null handle ends the program with `exit(1)`. -/
def spawn_workers (sys : Sys) (content : List Byte) (segment_size : Nat) :
    List Nat → Nat → Except Halt (List (List Byte) × Nat)
  | [], t => .ok ([], t)
  | i :: rest, t =>
    match substr content (i * segment_size) segment_size with
    | none => .error .out_of_range
    | some segment =>
      if sys.ok t then
        match spawn_workers sys content segment_size rest (t + 1) with
        | .ok (segments, t') => .ok (segment :: segments, t')
        | .error h => .error h
      else .error (.exit 1)

/-- The effect of the workers on `total_count`, once all of them have
returned: worker `i` runs `word_count_thread` on `segments[i]`, and the
critical sections take place in the order `order`. -/
def run_workers (order : List Nat) (segments : List (List Byte)) (total_count : WordMap) :
    WordMap :=
  order.foldl (fun g i => word_count_thread (segments.getD i []) g) total_count

/-- `word_count_multi_thread` (lines 79-110 of `FileProcessCode.cpp`, 56-87 of
`ProcessingData.cpp`), from clock value `t`; returns the map and the new clock
value. -/
def word_count_multi_thread (sys : Sys) (filepath : Path) (t : Nat) :
    Except Halt (WordMap × Nat) :=
  match sys.file filepath with
  | none => .ok ([], t)
  | some content =>
    let segment_size := content.length / NUM_THREADS
    match spawn_workers sys content segment_size (List.range NUM_THREADS) t with
    | .error h => .error h
    | .ok (segments, t') => .ok (run_workers (sys.schedule t').val segments [], t' + 1)

/-! ## `top_n_frequent_words` -/

/-- The comparator of the sort: `a.second > b.second`. -/
def comp (a b : Word × Nat) : Bool := decide (a.2 > b.2)

/-- Insertion of `x` into a list ordered by `comp`: `x` goes before the first
entry it must precede. -/
def insert_sorted (x : Word × Nat) : List (Word × Nat) → List (Word × Nat)
  | [] => [x]
  | y :: ys => if comp x y then x :: y :: ys else y :: insert_sorted x ys

/-- `std::sort(first, last, comp)`.  Its contract is that the result is a
permutation of the range, ordered by `comp`; the order of entries that `comp`
does not separate is left open.  The model is insertion sort, which is what
the standard libraries run on short ranges. -/
def std_sort (l : List (Word × Nat)) : List (Word × Nat) :=
  l.foldl (fun sorted x => insert_sorted x sorted) []

/-- The conversion of an `int` to `size_t` (64 bits). -/
def to_size_t (n : Int) : Nat := (n % 2 ^ 64).toNat

/-- `top_n_frequent_words` (lines 113-122): the entries of the map in iteration
order, sorted, and cut to `top_n` entries when there are more. -/
def top_n_frequent_words (word_map : WordMap) (top_n : Int := 10) : List (Word × Nat) :=
  let frequency_list := std_sort word_map
  if frequency_list.length > to_size_t top_n then frequency_list.take (to_size_t top_n)
  else frequency_list

/-! ## `process_with_multithreading` and `process_with_multiprocessing` -/

/-- What a strategy returns: `total_word_count`, the lines
`Word count for <file>: <count>` it printed, and the new clock value. -/
structure Report where
  total_word_count : Nat
  printed : List (Path × Nat)
  clock : Nat
deriving DecidableEq, Repr

/-- The loop of `process_with_multithreading` (lines 152-157). -/
def multithreading_loop (sys : Sys) : List Path → Report → Except Halt Report
  | [], r => .ok r
  | filepath :: rest, r =>
    match word_count_multi_thread sys filepath r.clock with
    | .error h => .error h
    | .ok (word_count, t) =>
      let file_word_count := word_count.length
      multithreading_loop sys rest
        { total_word_count := r.total_word_count + file_word_count
          printed := r.printed ++ [(filepath, file_word_count)]
          clock := t }

/-- `process_with_multithreading` (lines 149-159), from clock value `t`. -/
def process_with_multithreading (sys : Sys) (file_list : List Path) (t : Nat) :
    Except Halt Report :=
  multithreading_loop sys file_list { total_word_count := 0, printed := [], clock := t }

/-- A maximal run of letters starts at position `i` of the segment: the byte
at `i` is a letter and the byte before it, if there is one, is not. -/
def run_starts_at (segment : List Byte) (i : Nat) : Bool :=
  isalpha (segment.getD i 0) && (i = 0 || !isalpha (segment.getD (i - 1) 0))

/-- The maximal runs of letters of a segment, by starting position: from each
position where a run starts, the letters up to the next byte that is not a
letter, or up to the end of the segment. -/
def maximal_runs (segment : List Byte) : List (List Byte) :=
  (List.range segment.length).filterMap (fun i =>
    if run_starts_at segment i then some ((segment.drop i).takeWhile isalpha) else none)

/-- The bytes of a buffer at the positions `a ≤ p < b`. -/
def byte_range (buffer : List Byte) (a b : Nat) : List Byte := (buffer.take b).drop a

/-- No token crosses a boundary of the 4-way split: at no cut position
`i * segment_size`, `i = 1, 2, 3`, inside the buffer are the byte before the
cut and the byte after it both letters. -/
def no_token_crosses (content : List Byte) : Bool :=
  (List.range NUM_THREADS).all (fun i =>
    let cut := i * (content.length / NUM_THREADS)
    cut = 0 || content.length ≤ cut ||
      !(isalpha (content.getD (cut - 1) 0) && isalpha (content.getD cut 0)))

/-- A system in which every call succeeds, every file has the contents
`content`, and the workers commit in the order `order`. -/
def Sys.always (content : Option (List Byte)) (order : Schedule) : Sys :=
  { file := fun _ => content, ok := fun _ => true, schedule := fun _ => order }

/-- The commit order 0, 1, 2, 3. -/
def in_order : Schedule := ⟨[0, 1, 2, 3], by decide⟩

/-- A system in which no call succeeds and every file is empty. -/
def Sys.failing : Sys :=
  { file := fun _ => some [], ok := fun _ => false, schedule := fun _ => in_order }

/-! ## Auxiliary definitions of the proofs -/

/-- The non-empty pieces left when the segment is cut at every byte that is
not a letter, in order of appearance. -/
def letter_runs (segment : List Byte) : List (List Byte) :=
  (segment.splitOnP (fun ch => !isalpha ch)).filter (fun run => run ≠ [])

/-- The lowercase forms of the pieces of `letter_runs`. -/
def tokens (segment : List Byte) : List Word :=
  (letter_runs segment).map (fun run => run.map tolower)

/-- The runs that start in `l`, when `prev` tells whether the byte before `l`
is a letter. -/
def runs_after (prev : Bool) : List Byte → List (List Byte)
  | [] => []
  | b :: t =>
    if isalpha b && !prev then ((b :: t).takeWhile isalpha) :: runs_after true t
    else runs_after (isalpha b) t

/-- The lowercase forms of the non-empty pieces of a cut. -/
def lower_pieces (pieces : List (List Byte)) : List Word :=
  (pieces.filter (fun run => run ≠ [])).map (fun run => run.map tolower)

/-- The sum of the values a list of entries holds for `w`. -/
def total (l : List (Word × Nat)) (w : Word) : Nat :=
  ((l.filter (fun e => e.1 = w)).map Prod.snd).sum

/-- The segment the split loop cuts for worker `i`. -/
def segment_of (content : List Byte) (i : Nat) : List Byte :=
  (content.drop (i * (content.length / NUM_THREADS))).take (content.length / NUM_THREADS)

/-- The local maps of the four workers, in the order of the segments. -/
def worker_maps (content : List Byte) : List WordMap :=
  (List.range NUM_THREADS).map (fun i => local_count (segment_of content i))

/-- The order `std::sort` establishes: no entry has a smaller count than a later one. -/
def by_count (a b : Word × Nat) : Prop := a.2 ≥ b.2

/-- The entries `a` and `b` exchanged, every other entry kept. -/
def exchange (a b e : Word × Nat) : Word × Nat :=
  if e = a then b else if e = b then a else e

namespace WordMap

theorem find_add (m : WordMap) (k w : Word) (c : Nat) :
    find (add m k c) w = if k = w then some (count m w + c) else find m w := by
  induction m with
  | nil => by_cases h : k = w <;> simp [add, find, count, h]
  | cons e rest ih =>
    obtain ⟨k', v⟩ := e
    by_cases h1 : k' = k
    · subst h1
      by_cases h2 : k' = w <;> simp [add, find, count, h2]
    · by_cases h2 : k = w
      · subst h2
        simp [add, find, count, h1, ih]
      · by_cases h3 : k' = w
        · subst h3
          simp [add, find, h1, h2]
        · simp [add, find, h1, h2, h3, ih]

theorem keys_add (m : WordMap) (k : Word) (c : Nat) :
    keys (add m k c) = if k ∈ keys m then keys m else keys m ++ [k] := by
  induction m with
  | nil => simp [add, keys]
  | cons e rest ih =>
    obtain ⟨k', v⟩ := e
    by_cases h1 : k' = k
    · subst h1; simp [add, keys]
    · have h1' : ¬ k = k' := fun h => h1 h.symm
      have ih' := ih
      simp only [keys] at ih'
      by_cases h2 : k ∈ List.map Prod.fst rest
      · simp [add, keys, h1, h1', h2, ih']
      · simp [add, keys, h1, h1', h2, ih']

theorem wf_add (m : WordMap) (k : Word) (c : Nat) (h : wf m) : wf (add m k c) := by
  unfold wf at *
  rw [keys_add]
  by_cases hk : k ∈ keys m
  · simpa [hk] using h
  · simp only [hk, if_false]
    exact List.Nodup.append h (List.nodup_singleton k) (by simpa using hk)

theorem mem_keys_iff_find (m : WordMap) (w : Word) : w ∈ keys m ↔ (find m w).isSome := by
  induction m with
  | nil => simp [keys, find]
  | cons e rest ih =>
    obtain ⟨k, v⟩ := e
    by_cases h : k = w
    · simp [keys, find, h]
    · have h' : ¬ w = k := fun e => h e.symm
      simp only [keys] at ih
      simp [keys, find, h, h', ih]

theorem mem_iff_find (m : WordMap) (h : wf m) (w : Word) (c : Nat) :
    (w, c) ∈ m ↔ find m w = some c := by
  induction m with
  | nil => simp [find]
  | cons e rest ih =>
    obtain ⟨k, v⟩ := e
    have hk : k ∉ keys rest := (List.nodup_cons.mp h).1
    have hr : wf rest := (List.nodup_cons.mp h).2
    by_cases h1 : k = w
    · subst h1
      have : (k, c) ∉ rest := fun hm => hk (List.mem_map.mpr ⟨(k, c), hm, rfl⟩)
      simp [find, this, eq_comm]
    · have h1' : ¬ w = k := fun e => h1 e.symm
      simp [find, h1, h1', ih hr]

end WordMap

/-! ## The scan counts the maximal runs of letters -/

theorem WordMap.find_foldl_incr (ws : List Word) (m : WordMap) (w : Word) :
    WordMap.find (ws.foldl WordMap.incr m) w =
      if w ∈ ws then some (WordMap.count m w + ws.count w) else WordMap.find m w := by
  induction ws generalizing m with
  | nil => simp
  | cons a rest ih =>
    rw [List.foldl_cons, ih]
    by_cases h1 : a = w
    · subst h1
      by_cases h2 : a ∈ rest
      · simp [h2, WordMap.incr, WordMap.count, WordMap.find_add]; omega
      · simp [h2, WordMap.incr, WordMap.count, WordMap.find_add, List.count_eq_zero_of_not_mem h2]
    · have h1' : ¬ w = a := fun e => h1 e.symm
      by_cases h2 : w ∈ rest
      · simp [h1, h1', h2, WordMap.incr, WordMap.count, WordMap.find_add, List.count_cons]
      · simp [h1, h1', h2, WordMap.incr, WordMap.find_add]

theorem WordMap.wf_foldl_incr (ws : List Word) (m : WordMap) (h : WordMap.wf m) :
    WordMap.wf (ws.foldl WordMap.incr m) := by
  induction ws generalizing m with
  | nil => simpa using h
  | cons a rest ih => exact ih _ (WordMap.wf_add m a 1 h)

/-- The scan from any loop state: the final map is the starting map with one
increment per remaining run, in order of appearance. -/
theorem flush_foldl_scan_step (segment acc : List Byte) (st : Scan)
    (h : st.current_word = acc.reverse.map tolower) :
    flush (segment.foldl scan_step st) =
      (lower_pieces (List.splitOnP.go (fun ch => !isalpha ch) segment acc)).foldl
        WordMap.incr st.local_map := by
  induction segment generalizing acc st with
  | nil =>
    by_cases hacc : acc = []
    · simp [flush, lower_pieces, List.splitOnP.go, h, hacc]
    · simp [flush, lower_pieces, List.splitOnP.go, h, hacc]
  | cons a t ih =>
    by_cases ha : isalpha a = true
    · have hstep : scan_step st a = { st with current_word := st.current_word ++ [tolower a] } := by
        simp [scan_step, ha]
      rw [List.foldl_cons, hstep, ih (a :: acc) _ (by simp [h])]
      simp [List.splitOnP.go, ha]
    · have ha' : isalpha a = false := by simpa using ha
      by_cases hacc : acc = []
      · have hstep : scan_step st a = st := by
          simp [scan_step, ha', h, hacc]
        rw [List.foldl_cons, hstep, ih [] st (by simp [h, hacc])]
        simp [List.splitOnP.go, ha', lower_pieces, hacc]
      · have hstep : scan_step st a =
            { current_word := [], local_map := st.local_map.incr st.current_word } := by
          simp [scan_step, ha', h, hacc]
        rw [List.foldl_cons, hstep, ih [] _ (by simp)]
        simp [List.splitOnP.go, ha', lower_pieces, hacc, h]

/-- The non-empty pieces of the cut at the non-letters, when the cut resumes
with the reversed run `acc` in progress. -/
theorem filter_splitOnP_go (l acc : List Byte) :
    (List.splitOnP.go (fun ch => !isalpha ch) l acc).filter (fun run => run ≠ []) =
      if acc = [] then runs_after false l
      else (acc.reverse ++ l.takeWhile isalpha) :: runs_after true l := by
  induction l generalizing acc with
  | nil =>
    by_cases hacc : acc = [] <;> simp [List.splitOnP.go, runs_after, hacc]
  | cons a t ih =>
    by_cases ha : isalpha a = true
    · have hgo : List.splitOnP.go (fun ch => !isalpha ch) (a :: t) acc =
          List.splitOnP.go (fun ch => !isalpha ch) t (a :: acc) := by
        simp [List.splitOnP.go, ha]
      rw [hgo, ih (a :: acc)]
      by_cases hacc : acc = []
      · simp [hacc, runs_after, ha, List.takeWhile_cons]
      · simp [hacc, runs_after, ha, List.takeWhile_cons]
    · have ha' : isalpha a = false := by simpa using ha
      have hgo : List.splitOnP.go (fun ch => !isalpha ch) (a :: t) acc =
          acc.reverse :: List.splitOnP.go (fun ch => !isalpha ch) t [] := by
        simp [List.splitOnP.go, ha']
      rw [hgo, List.filter_cons, ih []]
      by_cases hacc : acc = []
      · simp [hacc, runs_after, ha']
      · simp [hacc, runs_after, ha', List.takeWhile_cons]

/-- The runs found position by position are the runs found by recursion on
the segment. -/
theorem filterMap_range_eq_runs_after (prev : Bool) (l : List Byte) :
    (List.range l.length).filterMap (fun i =>
      if isalpha (l.getD i 0) && (if i = 0 then !prev else !isalpha (l.getD (i - 1) 0)) then
        some ((l.drop i).takeWhile isalpha)
      else none) = runs_after prev l := by
  induction l generalizing prev with
  | nil => simp [runs_after]
  | cons b t ih =>
    rw [List.length_cons, List.range_succ_eq_map, List.filterMap_cons, List.filterMap_map]
    have htail : List.filterMap ((fun i =>
        if isalpha ((b :: t).getD i 0) &&
            (if i = 0 then !prev else !isalpha ((b :: t).getD (i - 1) 0)) then
          some (((b :: t).drop i).takeWhile isalpha)
        else none) ∘ Nat.succ) (List.range t.length) = runs_after (isalpha b) t := by
      rw [← ih (isalpha b)]
      apply List.filterMap_congr
      intro i _
      cases i with
      | zero => simp
      | succ j => simp
    rw [htail]
    by_cases hb : isalpha b = true
    · cases prev <;> simp [runs_after, hb]
    · have hb' : isalpha b = false := by simpa using hb
      simp [runs_after, hb']

theorem letter_runs_eq_maximal_runs (segment : List Byte) :
    letter_runs segment = maximal_runs segment := by
  unfold letter_runs maximal_runs List.splitOnP
  rw [filter_splitOnP_go, if_pos rfl, ← filterMap_range_eq_runs_after]
  apply List.filterMap_congr
  intro i _
  by_cases hi : i = 0 <;> simp [run_starts_at, hi]

theorem local_count_eq (segment : List Byte) :
    local_count segment = (tokens segment).foldl WordMap.incr [] := by
  unfold local_count
  rw [flush_foldl_scan_step segment [] _ (by simp)]
  rfl

theorem wf_local_count (segment : List Byte) : WordMap.wf (local_count segment) := by
  rw [local_count_eq]
  exact WordMap.wf_foldl_incr _ _ (by simp [WordMap.wf, WordMap.keys])

theorem find_local_count (segment : List Byte) (w : Word) :
    (local_count segment).find w =
      if (tokens segment).count w = 0 then none else some ((tokens segment).count w) := by
  rw [local_count_eq, WordMap.find_foldl_incr]
  by_cases h : w ∈ tokens segment
  · have : (tokens segment).count w ≠ 0 := by
      have := List.count_pos_iff.mpr h
      omega
    simp [h, this, WordMap.count, WordMap.find]
  · simp [h, List.count_eq_zero_of_not_mem h, WordMap.find]

/-! ## The merge -/

theorem total_cons (e : Word × Nat) (l : List (Word × Nat)) (w : Word) :
    total (e :: l) w = (if e.1 = w then e.2 else 0) + total l w := by
  by_cases h : e.1 = w <;> simp [total, List.filter_cons, h]

theorem total_eq_zero_of_not_mem (l : List (Word × Nat)) (w : Word) (h : w ∉ WordMap.keys l) :
    total l w = 0 := by
  induction l with
  | nil => simp [total]
  | cons e rest ih =>
    have h1 : ¬ e.1 = w := fun he => h (by simp [WordMap.keys, ← he])
    have h2 : w ∉ WordMap.keys rest := fun hm => h (by
      simp only [WordMap.keys, List.map_cons, List.mem_cons]; exact Or.inr hm)
    rw [total_cons, ih h2]; simp [h1]

theorem total_eq_count (l : WordMap) (h : WordMap.wf l) (w : Word) :
    total l w = WordMap.count l w := by
  induction l with
  | nil => simp [total, WordMap.count, WordMap.find]
  | cons e rest ih =>
    obtain ⟨k, v⟩ := e
    have hk : k ∉ WordMap.keys rest := (List.nodup_cons.mp h).1
    have hr : WordMap.wf rest := (List.nodup_cons.mp h).2
    rw [total_cons]
    by_cases h1 : k = w
    · subst h1
      simp [total_eq_zero_of_not_mem rest k hk, WordMap.count, WordMap.find]
    · have := ih hr
      simp only [WordMap.count] at this
      simp [h1, this, WordMap.count, WordMap.find]

theorem WordMap.mem_keys_cons (e : Word × Nat) (l : WordMap) (w : Word) :
    w ∈ WordMap.keys (e :: l) ↔ e.1 = w ∨ w ∈ WordMap.keys l := by
  simp [WordMap.keys, eq_comm]

theorem find_merge (l g : WordMap) (w : Word) :
    (merge g l).find w =
      if w ∈ WordMap.keys l then some (WordMap.count g w + total l w) else g.find w := by
  unfold merge
  induction l generalizing g with
  | nil => simp [WordMap.keys]
  | cons e rest ih =>
    obtain ⟨k, c⟩ := e
    rw [List.foldl_cons, ih, total_cons]
    have hc : WordMap.count (g.add k c) w = if k = w then WordMap.count g w + c else WordMap.count g w := by
      by_cases h : k = w <;> simp [WordMap.count, WordMap.find_add, h]
    by_cases h1 : k = w
    · have h3 : w ∈ WordMap.keys ((k, c) :: rest) := (WordMap.mem_keys_cons _ _ _).mpr (Or.inl h1)
      by_cases h2 : w ∈ WordMap.keys rest
      · rw [if_pos h2, if_pos h3, hc]
        simp only [h1, if_true]
        congr 1; omega
      · rw [if_neg h2, if_pos h3, WordMap.find_add, total_eq_zero_of_not_mem rest w h2]
        simp [h1]
    · by_cases h2 : w ∈ WordMap.keys rest
      · have h3 : w ∈ WordMap.keys ((k, c) :: rest) := (WordMap.mem_keys_cons _ _ _).mpr (Or.inr h2)
        rw [if_pos h2, if_pos h3, hc]
        simp [h1]
      · have h3 : w ∉ WordMap.keys ((k, c) :: rest) := fun hm =>
          ((WordMap.mem_keys_cons _ _ _).mp hm).elim h1 h2
        rw [if_neg h2, if_neg h3, WordMap.find_add]
        simp [h1]

theorem wf_merge (l g : WordMap) (h : WordMap.wf g) : WordMap.wf (merge g l) := by
  unfold merge
  induction l generalizing g with
  | nil => simpa using h
  | cons e rest ih => exact ih _ (WordMap.wf_add g e.1 e.2 h)

/-- The lookups after a sequence of merges. -/
theorem find_foldl_merge (ls : List WordMap) (g : WordMap) (w : Word) :
    (ls.foldl merge g).find w =
      if ∃ l ∈ ls, w ∈ WordMap.keys l then
        some (WordMap.count g w + (ls.map (fun l => total l w)).sum)
      else g.find w := by
  induction ls generalizing g with
  | nil => simp
  | cons l rest ih =>
    rw [List.foldl_cons, ih]
    by_cases h1 : w ∈ WordMap.keys l
    · have hc : WordMap.count (merge g l) w = WordMap.count g w + total l w := by
        simp [WordMap.count, find_merge, h1]
      by_cases h2 : ∃ l' ∈ rest, w ∈ WordMap.keys l'
      · have h3 : ∃ l' ∈ l :: rest, w ∈ WordMap.keys l' := ⟨l, by simp, h1⟩
        rw [if_pos h2, if_pos h3, hc]
        simp only [List.map_cons, List.sum_cons]
        congr 1; omega
      · have h3 : ∃ l' ∈ l :: rest, w ∈ WordMap.keys l' := ⟨l, by simp, h1⟩
        have hz : (rest.map (fun l => total l w)).sum = 0 := by
          apply List.sum_eq_zero
          intro x hx
          obtain ⟨l', hl', rfl⟩ := List.mem_map.mp hx
          exact total_eq_zero_of_not_mem l' w (fun hm => h2 ⟨l', hl', hm⟩)
        rw [if_neg h2, if_pos h3, find_merge, if_pos h1]
        simp [hz]
    · have hc : WordMap.count (merge g l) w = WordMap.count g w := by
        simp [WordMap.count, find_merge, h1]
      have hz : total l w = 0 := total_eq_zero_of_not_mem l w h1
      by_cases h2 : ∃ l' ∈ rest, w ∈ WordMap.keys l'
      · have h3 : ∃ l' ∈ l :: rest, w ∈ WordMap.keys l' := by
          obtain ⟨l', hl', hw⟩ := h2
          exact ⟨l', by simp [hl'], hw⟩
        rw [if_pos h2, if_pos h3, hc]
        simp [hz]
      · have h3 : ¬ ∃ l' ∈ l :: rest, w ∈ WordMap.keys l' := by
          rintro ⟨l', hl', hw⟩
          rcases List.mem_cons.mp hl' with rfl | hl'
          · exact h1 hw
          · exact h2 ⟨l', hl', hw⟩
        rw [if_neg h2, if_neg h3, find_merge, if_neg h1]

theorem wf_foldl_merge (ls : List WordMap) (g : WordMap) (h : WordMap.wf g) :
    WordMap.wf (ls.foldl merge g) := by
  induction ls generalizing g with
  | nil => simpa using h
  | cons l rest ih => exact ih _ (wf_merge l g h)

theorem same_foldl_merge_of_perm (g : WordMap) (ls ls' : List WordMap) (h : ls.Perm ls') :
    WordMap.same (ls.foldl merge g) (ls'.foldl merge g) := by
  intro w
  rw [find_foldl_merge, find_foldl_merge]
  have hsum : (ls.map (fun l => total l w)).sum = (ls'.map (fun l => total l w)).sum :=
    (h.map _).sum_eq
  have hex : (∃ l ∈ ls, w ∈ WordMap.keys l) ↔ (∃ l ∈ ls', w ∈ WordMap.keys l) := by
    constructor
    · rintro ⟨l, hl, hw⟩; exact ⟨l, h.mem_iff.mp hl, hw⟩
    · rintro ⟨l, hl, hw⟩; exact ⟨l, h.mem_iff.mpr hl, hw⟩
  simp only [hex, hsum]

/-- Two maps with the same contents hold the same entries. -/
theorem WordMap.perm_of_same (m₁ m₂ : WordMap) (h₁ : WordMap.wf m₁) (h₂ : WordMap.wf m₂)
    (h : WordMap.same m₁ m₂) : m₁.Perm m₂ := by
  have n₁ : m₁.Nodup := List.Nodup.of_map _ h₁
  have n₂ : m₂.Nodup := List.Nodup.of_map _ h₂
  rw [List.perm_ext_iff_of_nodup n₁ n₂]
  rintro ⟨w, c⟩
  rw [WordMap.mem_iff_find m₁ h₁, WordMap.mem_iff_find m₂ h₂, h w]

/-! ## `word_count_multi_thread` -/

theorem count_local_count (segment : List Byte) (w : Word) :
    (local_count segment).count w = (tokens segment).count w := by
  unfold WordMap.count
  rw [find_local_count]
  by_cases h : (tokens segment).count w = 0 <;> simp [h]

theorem mem_keys_local_count (segment : List Byte) (w : Word) :
    w ∈ WordMap.keys (local_count segment) ↔ (local_count segment).count w ≠ 0 := by
  rw [WordMap.mem_keys_iff_find, count_local_count, find_local_count]
  by_cases h : (tokens segment).count w = 0 <;> simp [h]

theorem segment_of_eq_byte_range (content : List Byte) (i : Nat) :
    segment_of content i =
      byte_range content (i * (content.length / 4)) ((i + 1) * (content.length / 4)) := by
  unfold segment_of byte_range NUM_THREADS
  rw [List.drop_take]
  congr 1
  rw [Nat.add_mul, Nat.one_mul, Nat.add_sub_cancel_left]

theorem spawn_workers_ok (sys : Sys) (content : List Byte) (s : Nat) (is : List Nat)
    (his : ∀ i ∈ is, i * s ≤ content.length) (t : Nat)
    (hok : ∀ j, j < is.length → sys.ok (t + j) = true) :
    spawn_workers sys content s is t =
      .ok (is.map (fun i => (content.drop (i * s)).take s), t + is.length) := by
  induction is generalizing t with
  | nil => simp [spawn_workers]
  | cons i rest ih =>
    have h1 : ¬ i * s > content.length := Nat.not_lt.mpr (his i (by simp))
    have h0 : sys.ok t = true := by simpa using hok 0 (by simp)
    have h2 := ih (fun j hj => his j (by simp [hj])) (t + 1) (by
      intro j hj
      rw [show t + 1 + j = t + (j + 1) by omega]
      exact hok (j + 1) (by simpa using hj))
    simp only [spawn_workers, substr, h1, if_false, h0, if_true, h2, List.map_cons,
      List.length_cons]
    congr 2
    omega

theorem run_workers_eq (order : List Nat) (segments : List (List Byte)) (g : WordMap) :
    run_workers order segments g =
      (order.map (fun i => local_count (segments.getD i []))).foldl merge g := by
  simp [run_workers, word_count_thread, List.foldl_map]

theorem word_count_multi_thread_ok (sys : Sys) (filepath : Path) (content : List Byte)
    (hfile : sys.file filepath = some content) (t : Nat)
    (hok : ∀ k, k < NUM_THREADS → sys.ok (t + k) = true) :
    ∃ m, word_count_multi_thread sys filepath t = .ok (m, t + 5) ∧ WordMap.wf m ∧
      WordMap.same m ((worker_maps content).foldl merge []) := by
  have hbound : ∀ i ∈ List.range NUM_THREADS,
      i * (content.length / NUM_THREADS) ≤ content.length := by
    intro i hi
    have hi' : i < 4 := by simpa [NUM_THREADS] using hi
    have : 4 * (content.length / 4) ≤ content.length := Nat.mul_div_le _ _
    have h3 : i * (content.length / 4) ≤ 4 * (content.length / 4) :=
      Nat.mul_le_mul_right _ (by omega)
    show i * (content.length / 4) ≤ content.length
    omega
  have hspawn := spawn_workers_ok sys content (content.length / NUM_THREADS)
    (List.range NUM_THREADS) hbound t (by simpa using hok)
  refine ⟨run_workers (sys.schedule (t + 4)).val
    ((List.range NUM_THREADS).map (fun i => segment_of content i)) [], ?_, ?_, ?_⟩
  · simp only [word_count_multi_thread, hfile, hspawn]
    rfl
  · rw [run_workers_eq]
    exact wf_foldl_merge _ _ (by simp [WordMap.wf, WordMap.keys])
  · rw [run_workers_eq]
    have hperm := (sys.schedule (t + 4)).property
    have h1 : ((sys.schedule (t + 4)).val.map (fun i => local_count
        (((List.range NUM_THREADS).map (fun i => segment_of content i)).getD i []))).Perm
        ((List.range NUM_THREADS).map (fun i => local_count
        (((List.range NUM_THREADS).map (fun i => segment_of content i)).getD i []))) :=
      hperm.map _
    have h2 : (List.range NUM_THREADS).map (fun i => local_count
        (((List.range NUM_THREADS).map (fun i => segment_of content i)).getD i [])) =
        worker_maps content := by
      simp [worker_maps, NUM_THREADS, List.range_succ]
    rw [h2] at h1
    exact same_foldl_merge_of_perm [] _ _ h1

theorem find_worker_maps (content : List Byte) (w : Word) :
    ((worker_maps content).foldl merge []).find w =
      if ((worker_maps content).map (fun l => l.count w)).sum = 0 then none
      else some ((worker_maps content).map (fun l => l.count w)).sum := by
  rw [find_foldl_merge]
  have hwf : ∀ l ∈ worker_maps content, WordMap.wf l := by
    intro l hl
    obtain ⟨i, _, rfl⟩ := List.mem_map.mp hl
    exact wf_local_count _
  have hsum : (worker_maps content).map (fun l => total l w) =
      (worker_maps content).map (fun l => l.count w) :=
    List.map_congr_left (fun l hl => total_eq_count l (hwf l hl) w)
  rw [hsum]
  by_cases h : ∃ l ∈ worker_maps content, w ∈ WordMap.keys l
  · obtain ⟨l, hl, hw⟩ := h
    have hne : l.count w ≠ 0 := by
      obtain ⟨i, _, rfl⟩ := List.mem_map.mp hl
      exact (mem_keys_local_count _ _).mp hw
    have hle : l.count w ≤ ((worker_maps content).map (fun l => l.count w)).sum :=
      List.single_le_sum (by simp) _ (List.mem_map.mpr ⟨l, hl, rfl⟩)
    have hpos : ((worker_maps content).map (fun l => l.count w)).sum ≠ 0 := by omega
    rw [if_pos ⟨l, hl, hw⟩, if_neg hpos]
    simp [WordMap.count, WordMap.find]
  · have hz : ((worker_maps content).map (fun l => l.count w)).sum = 0 := by
      apply List.sum_eq_zero
      intro x hx
      obtain ⟨l, hl, rfl⟩ := List.mem_map.mp hx
      by_contra hne
      obtain ⟨i, _, rfl⟩ := List.mem_map.mp hl
      exact h ⟨_, hl, (mem_keys_local_count _ _).mpr hne⟩
    rw [if_neg h, if_pos hz]
    simp [WordMap.find]

/-! ## The sort -/

theorem perm_insert_sorted (x : Word × Nat) (l : List (Word × Nat)) :
    (insert_sorted x l).Perm (x :: l) := by
  induction l with
  | nil => simp [insert_sorted]
  | cons y ys ih =>
    by_cases h : comp x y = true
    · simp [insert_sorted, h]
    · simp only [insert_sorted, h]
      exact (List.Perm.cons y ih).trans (List.Perm.swap x y ys)

theorem sorted_insert_sorted (x : Word × Nat) (l : List (Word × Nat))
    (h : l.Pairwise by_count) : (insert_sorted x l).Pairwise by_count := by
  induction l with
  | nil => simp [insert_sorted]
  | cons y ys ih =>
    have hy : ∀ z ∈ ys, by_count y z := (List.pairwise_cons.mp h).1
    have hys : ys.Pairwise by_count := (List.pairwise_cons.mp h).2
    by_cases hc : comp x y = true
    · have hxy : x.2 > y.2 := by simpa [comp] using hc
      simp only [insert_sorted, hc, if_true]
      refine List.pairwise_cons.mpr ⟨?_, h⟩
      intro z hz
      rcases List.mem_cons.mp hz with rfl | hz
      · exact Nat.le_of_lt hxy
      · have := hy z hz
        unfold by_count at *
        omega
    · have hxy : ¬ x.2 > y.2 := by simpa [comp] using hc
      simp only [insert_sorted, hc]
      refine List.pairwise_cons.mpr ⟨?_, ih hys⟩
      intro z hz
      rcases List.mem_cons.mp ((perm_insert_sorted x ys).mem_iff.mp hz) with rfl | hz
      · unfold by_count; omega
      · exact hy z hz

theorem std_sort_aux (l sorted : List (Word × Nat)) (h : sorted.Pairwise by_count) :
    (l.foldl (fun sorted x => insert_sorted x sorted) sorted).Perm (sorted ++ l) ∧
      (l.foldl (fun sorted x => insert_sorted x sorted) sorted).Pairwise by_count := by
  induction l generalizing sorted with
  | nil => simpa using h
  | cons x rest ih =>
    obtain ⟨hp, hs⟩ := ih (insert_sorted x sorted) (sorted_insert_sorted x sorted h)
    refine ⟨?_, hs⟩
    refine hp.trans ?_
    have h1 : (insert_sorted x sorted ++ rest).Perm ((x :: sorted) ++ rest) :=
      (perm_insert_sorted x sorted).append_right rest
    exact h1.trans (by simpa using (List.perm_middle).symm)

theorem perm_std_sort (l : List (Word × Nat)) : (std_sort l).Perm l := by
  simpa [std_sort] using (std_sort_aux l [] List.Pairwise.nil).1

theorem sorted_std_sort (l : List (Word × Nat)) : (std_sort l).Pairwise by_count :=
  (std_sort_aux l [] List.Pairwise.nil).2

theorem top_n_eq_take (word_map : WordMap) (top_n : Int) :
    top_n_frequent_words word_map top_n = (std_sort word_map).take (to_size_t top_n) := by
  unfold top_n_frequent_words
  by_cases h : (std_sort word_map).length > to_size_t top_n
  · simp [h]
  · simp only [h, if_false]
    exact (List.take_of_length_le (Nat.not_lt.mp h)).symm

theorem to_size_t_of_nonneg (n : Int) (h0 : 0 ≤ n) (h1 : n < 2 ^ 31) : to_size_t n = n.toNat := by
  unfold to_size_t
  rw [Int.emod_eq_of_lt h0 (by omega)]

/-- The sequence of counts of the sorted entries does not depend on the
iteration order of the map. -/
theorem map_snd_std_sort_of_perm (m₁ m₂ : List (Word × Nat)) (hp : m₁.Perm m₂) :
    (std_sort m₁).map Prod.snd = (std_sort m₂).map Prod.snd := by
  have hperm : ((std_sort m₁).map Prod.snd).Perm ((std_sort m₂).map Prod.snd) :=
    ((perm_std_sort m₁).trans (hp.trans (perm_std_sort m₂).symm)).map Prod.snd
  have s₁ : ((std_sort m₁).map Prod.snd).Pairwise (fun x y : Nat => x ≥ y) :=
    List.pairwise_map.mpr (sorted_std_sort m₁)
  have s₂ : ((std_sort m₂).map Prod.snd).Pairwise (fun x y : Nat => x ≥ y) :=
    List.pairwise_map.mpr (sorted_std_sort m₂)
  haveI : IsAntisymm Nat (fun x y : Nat => x ≥ y) := ⟨fun _ _ h₁ h₂ => Nat.le_antisymm h₂ h₁⟩
  exact List.eq_of_perm_of_sorted hperm s₁ s₂

/-- Two lists with the same sequence of counts hold the same entry at every
position whose count belongs to one entry only. -/
theorem getElem?_eq_of_map_snd_eq (t₁ t₂ : List (Word × Nat)) (M : List (Word × Nat))
    (hmap : t₁.map Prod.snd = t₂.map Prod.snd) (hsub : ∀ y ∈ t₂, y ∈ M)
    (i : Nat) (x : Word × Nat) (hx : t₁[i]? = some x)
    (huniq : ∀ e ∈ M, e.2 = x.2 → e = x) : t₂[i]? = some x := by
  have h1 : (t₂.map Prod.snd)[i]? = some x.2 := by
    rw [← hmap, List.getElem?_map, hx]; rfl
  rw [List.getElem?_map] at h1
  cases hy : t₂[i]? with
  | none => rw [hy] at h1; simp at h1
  | some y =>
    rw [hy] at h1
    have hy2 : y.2 = x.2 := by simpa using h1
    rw [huniq y (hsub y (List.getElem?_mem hy)) hy2]

theorem exchange_snd (a b e : Word × Nat) (hab : a.2 = b.2) : (exchange a b e).2 = e.2 := by
  unfold exchange
  by_cases h1 : e = a
  · simp [h1, hab]
  · by_cases h2 : e = b
    · subst h2
      simp [h1, hab]
    · simp [h1, h2]

theorem exchange_exchange (a b e : Word × Nat) : exchange a b (exchange a b e) = e := by
  unfold exchange
  by_cases h1 : e = a
  · by_cases h3 : b = a
    · simp [h1, h3]
    · simp [h1, h3]
  · by_cases h2 : e = b
    · simp [h1, h2]
    · simp [h1, h2]

theorem exchange_mem (a b e : Word × Nat) (m : List (Word × Nat)) (ha : a ∈ m) (hb : b ∈ m)
    (he : e ∈ m) : exchange a b e ∈ m := by
  unfold exchange
  by_cases h1 : e = a
  · simpa [h1] using hb
  · by_cases h2 : e = b
    · subst h2
      simpa [h1] using ha
    · simpa [h1, h2] using he

/-- Exchanging two entries of a map in its iteration order gives an iteration
order of the same entries. -/
theorem perm_map_exchange (a b : Word × Nat) (m : List (Word × Nat)) (hnd : m.Nodup)
    (ha : a ∈ m) (hb : b ∈ m) : (m.map (exchange a b)).Perm m := by
  have hinj : Function.Injective (exchange a b) := by
    intro x y hxy
    have := congrArg (exchange a b) hxy
    simpa [exchange_exchange] using this
  rw [List.perm_ext_iff_of_nodup (hnd.map hinj) hnd]
  intro e
  constructor
  · intro he
    obtain ⟨e', he', rfl⟩ := List.mem_map.mp he
    exact exchange_mem a b e' m ha hb he'
  · intro he
    exact List.mem_map.mpr ⟨exchange a b e, exchange_mem a b e m ha hb he,
      exchange_exchange a b e⟩

theorem insert_sorted_map (f : Word × Nat → Word × Nat) (hf : ∀ e, (f e).2 = e.2)
    (x : Word × Nat) (l : List (Word × Nat)) :
    insert_sorted (f x) (l.map f) = (insert_sorted x l).map f := by
  induction l with
  | nil => simp [insert_sorted]
  | cons y ys ih =>
    have hc : comp (f x) (f y) = comp x y := by simp [comp, hf]
    by_cases h : comp x y = true
    · simp [insert_sorted, hc, h]
    · simp [insert_sorted, hc, h, ih]

/-- The sort looks at the counts only: renaming the entries without changing
their counts renames the result. -/
theorem std_sort_map (f : Word × Nat → Word × Nat) (hf : ∀ e, (f e).2 = e.2)
    (l : List (Word × Nat)) : std_sort (l.map f) = (std_sort l).map f := by
  have haux : ∀ (l acc : List (Word × Nat)),
      (l.map f).foldl (fun sorted x => insert_sorted x sorted) (acc.map f) =
        (l.foldl (fun sorted x => insert_sorted x sorted) acc).map f := by
    intro l
    induction l with
    | nil => intro acc; rfl
    | cons x rest ih =>
      intro acc
      rw [List.map_cons, List.foldl_cons, List.foldl_cons, insert_sorted_map f hf, ih]
  exact haux l []

/-! ## The two strategies of `ProcessingData.cpp` -/

theorem WordMap.eq_nil_of_find_none (m : WordMap) (h : ∀ w, m.find w = none) : m = [] := by
  cases m with
  | nil => rfl
  | cons e rest =>
    obtain ⟨k, v⟩ := e
    have := h k
    simp [WordMap.find] at this

theorem worker_maps_eq_byte_range (content : List Byte) :
    worker_maps content = (List.range 4).map (fun i =>
      local_count (byte_range content (i * (content.length / 4)) ((i + 1) * (content.length / 4)))) := by
  unfold worker_maps
  apply List.map_congr_left
  intro i _
  rw [segment_of_eq_byte_range]

theorem byte_range_of_take (content : List Byte) (a b n : Nat) (h : b ≤ n) :
    byte_range (content.take n) a b = byte_range content a b := by
  unfold byte_range
  rw [List.take_take, Nat.min_eq_left h]

theorem worker_maps_congr (content content' : List Byte)
    (hlen : content'.length = content.length)
    (htake : content'.take (4 * (content.length / 4)) = content.take (4 * (content.length / 4))) :
    worker_maps content' = worker_maps content := by
  rw [worker_maps_eq_byte_range, worker_maps_eq_byte_range, hlen]
  apply List.map_congr_left
  intro i hi
  have hi' : i < 4 := by simpa using hi
  have hb : (i + 1) * (content.length / 4) ≤ 4 * (content.length / 4) :=
    Nat.mul_le_mul_right _ (by omega)
  rw [← byte_range_of_take content' _ _ _ hb, ← byte_range_of_take content _ _ _ hb, htake]

/-! ## The claims -/

/-- C1, the code on a buffer of 10 bytes: the split loop cuts four segments of
2 bytes each, so the segments joined are the first 8 bytes of the buffer and
not the buffer; the last 2 bytes are in no segment, and the word `gh` they
hold is not in the map `word_count_multi_thread` returns. -/
theorem C1_remainder_in_no_segment :
    spawn_workers (Sys.always none in_order) (str "ab cd.. gh") (10 / NUM_THREADS)
        (List.range NUM_THREADS) 0 = .ok ([str "ab", str " c", str "d.", str ". "], 4) ∧
    ([str "ab", str " c", str "d.", str ". "].map List.length = [2, 2, 2, 2]) ∧
    [str "ab", str " c", str "d.", str ". "].flatten = (str "ab cd.. gh").take 8 ∧
    [str "ab", str " c", str "d.", str ". "].flatten ≠ str "ab cd.. gh" ∧
    word_count_multi_thread (Sys.always (some (str "ab cd.. gh")) in_order) "f" 0 =
      .ok ([(str "ab", 1), (str "c", 1), (str "d", 1)], 5) := by
  refine ⟨rfl, rfl, rfl, by decide, rfl⟩

/-- C2: the local map of a segment is a well-formed map in which the value
under `w` is the number of maximal runs of letters of the segment whose
lowercase form is `w` (a run that ends at the end of the segment is one of
them), and `w` is not a key when there is no such run. -/
theorem C2_local_count_counts_runs (segment : List Byte) (w : Word) :
    WordMap.wf (local_count segment) ∧
    (local_count segment).find w =
      if (maximal_runs segment).countP (fun run => run.map tolower = w) = 0 then none
      else some ((maximal_runs segment).countP (fun run => run.map tolower = w)) := by
  have hc : (tokens segment).count w =
      (maximal_runs segment).countP (fun run => run.map tolower = w) := by
    unfold tokens List.count
    rw [List.countP_map, letter_runs_eq_maximal_runs]
    congr 1
    funext run
    by_cases hr : run.map tolower = w <;> simp [Function.comp, hr]
  exact ⟨wf_local_count segment, by rw [← hc]; exact find_local_count segment w⟩

/-- C3: committing a list of local maps into a global map with the merge loop
gives the same contents in whatever order the local maps are committed; when
the global map is well formed the two results hold the same entries. -/
theorem C3_merge_order_independent (global_map : WordMap) (locals locals' : List WordMap)
    (h : locals.Perm locals') :
    WordMap.same (locals.foldl merge global_map) (locals'.foldl merge global_map) ∧
    (WordMap.wf global_map →
      (locals.foldl merge global_map).Perm (locals'.foldl merge global_map)) := by
  have hs := same_foldl_merge_of_perm global_map locals locals' h
  exact ⟨hs, fun hwf => WordMap.perm_of_same _ _ (wf_foldl_merge _ _ hwf)
    (wf_foldl_merge _ _ hwf) hs⟩

theorem C3_merge_order_independent_witness :
    [[(str "a", 1), (str "b", 2)], [(str "b", 1), (str "c", 1)]].Perm
      [[(str "b", 1), (str "c", 1)], [(str "a", 1), (str "b", 2)]] ∧
    WordMap.same
      ([[(str "a", 1), (str "b", 2)], [(str "b", 1), (str "c", 1)]].foldl merge [(str "c", 5)])
      ([[(str "b", 1), (str "c", 1)], [(str "a", 1), (str "b", 2)]].foldl merge [(str "c", 5)]) ∧
    WordMap.wf [(str "c", 5)] ∧
    ([[(str "a", 1), (str "b", 2)], [(str "b", 1), (str "c", 1)]].foldl merge
        [(str "c", 5)]).Perm
      ([[(str "b", 1), (str "c", 1)], [(str "a", 1), (str "b", 2)]].foldl merge
        [(str "c", 5)]) :=
  ⟨List.Perm.swap _ _ [],
    (C3_merge_order_independent [(str "c", 5)] _ _ (List.Perm.swap _ _ [])).1,
    by decide,
    (C3_merge_order_independent [(str "c", 5)] _ _ (List.Perm.swap _ _ [])).2 (by decide)⟩

/-- C4, the code on two buffers in which no token crosses a boundary of the
split.  On `"   a"` (4 bytes) the last worker counts `a` through its flush and
the single-threaded loop, which has no flush, does not.  On `"a b c "`
(6 bytes) the single-threaded loop counts `c` and no worker does: the split
leaves the last 2 bytes in no segment.  This holds whatever the order in
which the workers commit. -/
theorem C4_multi_differs_from_single (order : Schedule) :
    no_token_crosses (str "   a") = true ∧
    (∃ m t, word_count_multi_thread (Sys.always (some (str "   a")) order) "f" 0 = .ok (m, t) ∧
      m.find (str "a") = some 1) ∧
    word_count_single_thread (Sys.always (some (str "   a")) order) "f" = [] ∧
    no_token_crosses (str "a b c ") = true ∧
    (∃ m t, word_count_multi_thread (Sys.always (some (str "a b c ")) order) "f" 0 = .ok (m, t) ∧
      m.find (str "c") = none) ∧
    word_count_single_thread (Sys.always (some (str "a b c ")) order) "f" =
      [(str "a", 1), (str "b", 1), (str "c", 1)] := by
  refine ⟨rfl, ?_, rfl, rfl, ?_, rfl⟩
  · obtain ⟨m, hm, _, hsame⟩ := word_count_multi_thread_ok
      (Sys.always (some (str "   a")) order) "f" (str "   a") rfl 0 (fun _ _ => rfl)
    exact ⟨m, _, hm, by rw [hsame]; rfl⟩
  · obtain ⟨m, hm, _, hsame⟩ := word_count_multi_thread_ok
      (Sys.always (some (str "a b c ")) order) "f" (str "a b c ") rfl 0 (fun _ _ => rfl)
    exact ⟨m, _, hm, by rw [hsame]; rfl⟩

/-- C5: for a well-formed map and `0 ≤ n` (an `int`), `top_n_frequent_words`
returns `min n (number of keys)` entries; each is an entry of the map; no word
is returned twice; the counts do not increase along the list; an entry of the
map that is left out has a count no greater than each returned count; and when
the map has fewer than `n` entries (or exactly `n`), all of them are returned. -/
theorem C5_top_n_frequent_words (word_map : WordMap) (n : Int) (hwf : WordMap.wf word_map)
    (h0 : 0 ≤ n) (h1 : n < 2 ^ 31) :
    (top_n_frequent_words word_map n).length = min n.toNat word_map.length ∧
    (∀ e ∈ top_n_frequent_words word_map n, e ∈ word_map) ∧
    ((top_n_frequent_words word_map n).map Prod.fst).Nodup ∧
    (top_n_frequent_words word_map n).Pairwise (fun a b => a.2 ≥ b.2) ∧
    (∀ e ∈ word_map, e ∉ top_n_frequent_words word_map n →
      ∀ x ∈ top_n_frequent_words word_map n, e.2 ≤ x.2) ∧
    (word_map.length ≤ n.toNat → (top_n_frequent_words word_map n).Perm word_map) := by
  have hperm := perm_std_sort word_map
  have hsorted := sorted_std_sort word_map
  rw [top_n_eq_take, to_size_t_of_nonneg n h0 h1]
  refine ⟨?_, ?_, ?_, ?_, ?_, ?_⟩
  · rw [List.length_take, hperm.length_eq]
  · intro e he
    exact hperm.mem_iff.mp (List.mem_of_mem_take he)
  · have hnd : ((std_sort word_map).map Prod.fst).Nodup :=
      ((hperm.map Prod.fst).nodup_iff).mpr hwf
    exact hnd.sublist ((List.take_sublist _ _).map Prod.fst)
  · exact hsorted.sublist (List.take_sublist _ _)
  · intro e he hne x hx
    have he' : e ∈ (std_sort word_map).take n.toNat ++ (std_sort word_map).drop n.toNat := by
      rw [List.take_append_drop]; exact hperm.mem_iff.mpr he
    have hdrop : e ∈ (std_sort word_map).drop n.toNat := by
      rcases List.mem_append.mp he' with h | h
      · exact absurd h hne
      · exact h
    have hsplit : ((std_sort word_map).take n.toNat ++
        (std_sort word_map).drop n.toNat).Pairwise by_count := by
      rw [List.take_append_drop]; exact hsorted
    exact (List.pairwise_append.mp hsplit).2.2 x hx e hdrop
  · intro hle
    rw [List.take_of_length_le (by rw [hperm.length_eq]; exact hle)]
    exact hperm

theorem C5_top_n_frequent_words_witness :
    WordMap.wf [(str "a", 1), (str "b", 3), (str "c", 2)] ∧ (0 : Int) ≤ 2 ∧ (2 : Int) < 2 ^ 31 ∧
    ((top_n_frequent_words [(str "a", 1), (str "b", 3), (str "c", 2)] 2).length =
      min (2 : Int).toNat [(str "a", 1), (str "b", 3), (str "c", 2)].length ∧
    (∀ e ∈ top_n_frequent_words [(str "a", 1), (str "b", 3), (str "c", 2)] 2,
      e ∈ [(str "a", 1), (str "b", 3), (str "c", 2)]) ∧
    ((top_n_frequent_words [(str "a", 1), (str "b", 3), (str "c", 2)] 2).map Prod.fst).Nodup ∧
    (top_n_frequent_words [(str "a", 1), (str "b", 3), (str "c", 2)] 2).Pairwise
      (fun a b => a.2 ≥ b.2) ∧
    (∀ e ∈ [(str "a", 1), (str "b", 3), (str "c", 2)],
      e ∉ top_n_frequent_words [(str "a", 1), (str "b", 3), (str "c", 2)] 2 →
      ∀ x ∈ top_n_frequent_words [(str "a", 1), (str "b", 3), (str "c", 2)] 2, e.2 ≤ x.2) ∧
    ([(str "a", 1), (str "b", 3), (str "c", 2)].length ≤ (2 : Int).toNat →
      (top_n_frequent_words [(str "a", 1), (str "b", 3), (str "c", 2)] 2).Perm
        [(str "a", 1), (str "b", 3), (str "c", 2)])) :=
  ⟨by decide, by decide, by decide,
    C5_top_n_frequent_words [(str "a", 1), (str "b", 3), (str "c", 2)] 2
      (by decide) (by decide) (by decide)⟩

/-- C6, refuted: the map with the contents `a: 3, b: 3` that iterates `b`
first gives the list with `b` before `a`, while the same contents iterated `a`
first give `a` before `b`; and the map `the: 2, cat: 2, sat: 2` iterated in
that order gives, for `n = 3`, the list in that order, not `cat, sat, the`. -/
theorem C6_ties_follow_iteration_order :
    WordMap.wf [(str "b", 3), (str "a", 3)] ∧
    WordMap.same [(str "b", 3), (str "a", 3)] [(str "a", 3), (str "b", 3)] ∧
    top_n_frequent_words [(str "b", 3), (str "a", 3)] = [(str "b", 3), (str "a", 3)] ∧
    top_n_frequent_words [(str "a", 3), (str "b", 3)] = [(str "a", 3), (str "b", 3)] ∧
    top_n_frequent_words [(str "the", 2), (str "cat", 2), (str "sat", 2)] 3 =
      [(str "the", 2), (str "cat", 2), (str "sat", 2)] ∧
    top_n_frequent_words [(str "the", 2), (str "cat", 2), (str "sat", 2)] 3 ≠
      [(str "cat", 2), (str "sat", 2), (str "the", 2)] := by
  refine ⟨by decide, ?_, rfl, rfl, rfl, by decide⟩
  intro w
  by_cases ha : str "a" = w
  · subst ha; rfl
  · by_cases hb : str "b" = w
    · subst hb; rfl
    · simp [WordMap.find, ha, hb]

/-- C6, amended: `top_n_frequent_words` orders the entries by count alone.
For every map the counts do not increase along the list, and for two
iteration orders of the same entries the two lists have the same sequence of
counts and hold the same entry at every position whose count no other entry
of the map has.  So the list is a function of the map's contents alone when
no returned entry shares its count with another entry of the map; ties among
the entries left out do not matter.  When a returned entry does share its
count with another entry, exchanging the two in the iteration order gives the
same contents and another list.  Entries with equal counts are not ordered by
word: the map `a: 3, b: 3` gives `a` before `b` when it iterates `a` first and
`b` before `a` when it iterates `b` first, and the map
`the: 2, cat: 2, sat: 2` iterated in that order gives the list in that order
for `n = 3`. -/
theorem C6_order_by_count_only (m₁ m₂ : WordMap) (n : Int) :
    (top_n_frequent_words m₁ n).Pairwise (fun a b => a.2 ≥ b.2) ∧
    (m₁.Perm m₂ →
      (top_n_frequent_words m₁ n).map Prod.snd = (top_n_frequent_words m₂ n).map Prod.snd) ∧
    (m₁.Perm m₂ → ∀ (i : Nat) (x : Word × Nat), (top_n_frequent_words m₁ n)[i]? = some x →
      (∀ e ∈ m₁, e.2 = x.2 → e = x) → (top_n_frequent_words m₂ n)[i]? = some x) ∧
    (m₁.Perm m₂ → (∀ x ∈ top_n_frequent_words m₁ n, ∀ e ∈ m₁, e.2 = x.2 → e = x) →
      top_n_frequent_words m₁ n = top_n_frequent_words m₂ n) ∧
    (∀ (m : WordMap) (k : Int) (a b : Word × Nat), WordMap.wf m →
      a ∈ top_n_frequent_words m k → b ∈ m → a ≠ b → a.2 = b.2 →
      (m.map (exchange a b)).Perm m ∧
      top_n_frequent_words (m.map (exchange a b)) k ≠ top_n_frequent_words m k) ∧
    top_n_frequent_words [(str "a", 3), (str "b", 3)] = [(str "a", 3), (str "b", 3)] ∧
    top_n_frequent_words [(str "b", 3), (str "a", 3)] = [(str "b", 3), (str "a", 3)] ∧
    top_n_frequent_words [(str "the", 2), (str "cat", 2), (str "sat", 2)] 3 =
      [(str "the", 2), (str "cat", 2), (str "sat", 2)] := by
  have hcounts : m₁.Perm m₂ →
      (top_n_frequent_words m₁ n).map Prod.snd = (top_n_frequent_words m₂ n).map Prod.snd := by
    intro hperm
    rw [top_n_eq_take, top_n_eq_take, List.map_take, List.map_take,
      map_snd_std_sort_of_perm m₁ m₂ hperm]
  have hpos : m₁.Perm m₂ → ∀ (i : Nat) (x : Word × Nat),
      (top_n_frequent_words m₁ n)[i]? = some x →
      (∀ e ∈ m₁, e.2 = x.2 → e = x) → (top_n_frequent_words m₂ n)[i]? = some x := by
    intro hperm i x hx huniq
    refine getElem?_eq_of_map_snd_eq _ _ m₁ (hcounts hperm) ?_ i x hx huniq
    intro y hy
    rw [top_n_eq_take] at hy
    exact hperm.mem_iff.mpr ((perm_std_sort m₂).mem_iff.mp (List.mem_of_mem_take hy))
  refine ⟨?_, hcounts, hpos, ?_, ?_, rfl, rfl, rfl⟩
  · rw [top_n_eq_take]
    exact (sorted_std_sort m₁).sublist (List.take_sublist _ _)
  · intro hperm huniq
    apply List.ext_getElem?
    intro i
    cases hx : (top_n_frequent_words m₁ n)[i]? with
    | some x =>
      exact (hpos hperm i x hx (huniq x (List.getElem?_mem hx))).symm
    | none =>
      have hlen : (top_n_frequent_words m₁ n).length = (top_n_frequent_words m₂ n).length := by
        simpa using congrArg List.length (hcounts hperm)
      have h1 : (top_n_frequent_words m₁ n).length ≤ i := List.getElem?_eq_none_iff.mp hx
      exact (List.getElem?_eq_none_iff.mpr (by omega)).symm
  · intro m k a b hwf ha hb hne hab
    have hnd : m.Nodup := List.Nodup.of_map _ hwf
    have ham : a ∈ m := by
      rw [top_n_eq_take] at ha
      exact (perm_std_sort m).mem_iff.mp (List.mem_of_mem_take ha)
    refine ⟨perm_map_exchange a b m hnd ham hb, ?_⟩
    have hmap : top_n_frequent_words (m.map (exchange a b)) k =
        (top_n_frequent_words m k).map (exchange a b) := by
      rw [top_n_eq_take, top_n_eq_take,
        std_sort_map (exchange a b) (fun e => exchange_snd a b e hab), List.map_take]
    intro heq
    obtain ⟨i, hi⟩ := List.getElem?_of_mem ha
    have h2 : ((top_n_frequent_words m k).map (exchange a b))[i]? = some (exchange a b a) := by
      rw [List.getElem?_map, hi]; rfl
    rw [← hmap, heq, hi] at h2
    have h3 : a = exchange a b a := by simpa using h2
    have h4 : exchange a b a = b := by simp [exchange]
    exact hne (h3.trans h4)

theorem C6_order_by_count_only_witness :
    (top_n_frequent_words [(str "a", 1), (str "b", 3), (str "c", 1)] 1).Pairwise
      (fun a b => a.2 ≥ b.2) ∧
    [(str "a", 1), (str "b", 3), (str "c", 1)].Perm [(str "c", 1), (str "b", 3), (str "a", 1)] ∧
    (top_n_frequent_words [(str "a", 1), (str "b", 3), (str "c", 1)] 1).map Prod.snd =
      (top_n_frequent_words [(str "c", 1), (str "b", 3), (str "a", 1)] 1).map Prod.snd ∧
    (top_n_frequent_words [(str "a", 1), (str "b", 3), (str "c", 1)] 1)[0]? =
      some (str "b", 3) ∧
    (∀ e ∈ [(str "a", 1), (str "b", 3), (str "c", 1)], e.2 = (str "b", 3).2 → e = (str "b", 3)) ∧
    (top_n_frequent_words [(str "c", 1), (str "b", 3), (str "a", 1)] 1)[0]? =
      some (str "b", 3) ∧
    (∀ x ∈ top_n_frequent_words [(str "a", 1), (str "b", 3), (str "c", 1)] 1,
      ∀ e ∈ [(str "a", 1), (str "b", 3), (str "c", 1)], e.2 = x.2 → e = x) ∧
    top_n_frequent_words [(str "a", 1), (str "b", 3), (str "c", 1)] 1 =
      top_n_frequent_words [(str "c", 1), (str "b", 3), (str "a", 1)] 1 ∧
    WordMap.wf [(str "a", 3), (str "b", 3)] ∧
    (str "a", 3) ∈ top_n_frequent_words [(str "a", 3), (str "b", 3)] 1 ∧
    (str "b", 3) ∈ [(str "a", 3), (str "b", 3)] ∧
    (str "a", 3) ≠ (str "b", 3) ∧
    (str "a", 3).2 = (str "b", 3).2 ∧
    ([(str "a", 3), (str "b", 3)].map (exchange (str "a", 3) (str "b", 3))).Perm
      [(str "a", 3), (str "b", 3)] ∧
    top_n_frequent_words ([(str "a", 3), (str "b", 3)].map
      (exchange (str "a", 3) (str "b", 3))) 1 ≠
      top_n_frequent_words [(str "a", 3), (str "b", 3)] 1 :=
  have h := C6_order_by_count_only [(str "a", 1), (str "b", 3), (str "c", 1)]
    [(str "c", 1), (str "b", 3), (str "a", 1)] 1
  have hN := h.2.2.2.2.1 [(str "a", 3), (str "b", 3)] 1 (str "a", 3) (str "b", 3)
    (by decide) (by decide) (by decide) (by decide) rfl
  ⟨h.1, by decide, h.2.1 (by decide), rfl, by decide,
    h.2.2.1 (by decide) 0 (str "b", 3) rfl (by decide), by decide,
    h.2.2.2.1 (by decide) (by decide), by decide, by decide, by decide, by decide, rfl,
    hN.1, hN.2⟩

/-- C7, the code on the buffer `"cat"`: the loop of
`word_count_single_thread` ends with the word `cat` still in progress and the
function returns the empty map, while the scan of `word_count_thread` flushes
it and gives `cat: 1`.  On `"the cat sat. The CAT sat!"`, which ends with a
byte that is not a letter, the two agree. -/
theorem C7_single_thread_drops_last_word :
    word_count_single_thread (Sys.always (some (str "cat")) in_order) "f" = [] ∧
    local_count (str "cat") = [(str "cat", 1)] ∧
    word_count_single_thread (Sys.always (some (str "the cat sat. The CAT sat!")) in_order) "f" =
      [(str "the", 2), (str "cat", 2), (str "sat", 2)] ∧
    local_count (str "the cat sat. The CAT sat!") =
      [(str "the", 2), (str "cat", 2), (str "sat", 2)] := by
  refine ⟨rfl, rfl, rfl, rfl⟩

/-- C9, refuted: on an empty file `word_count_multi_thread` still starts its
four workers, so when `CreateThread` fails the call ends the program with
`exit(1)`, and so does `process_with_multithreading` on a list that starts
with the empty file. -/
theorem C9_empty_file_reaches_exit :
    Sys.failing.file "empty" = some [] ∧
    word_count_multi_thread Sys.failing "empty" 0 = .error (.exit 1) ∧
    process_with_multithreading Sys.failing ["empty", "next"] 0 = .error (.exit 1) := by
  refine ⟨rfl, rfl, rfl⟩

/-- C9, amended: for an empty file, when the four `CreateThread` calls of
`word_count_multi_thread` succeed, the call returns the empty map;
`top_n_frequent_words` of the empty map is the empty list for every `n`; and
the loop of `process_with_multithreading` prints 0 for the file, leaves the
running total as it is and goes on with the remaining files. -/
theorem C9_empty_file (sys : Sys) (filepath : Path) (t : Nat)
    (hfile : sys.file filepath = some [])
    (hok : ∀ k, k < NUM_THREADS → sys.ok (t + k) = true) :
    word_count_multi_thread sys filepath t = .ok ([], t + 5) ∧
    (∀ n : Int, top_n_frequent_words [] n = []) ∧
    (∀ (rest : List Path) (r : Report), r.clock = t →
      multithreading_loop sys (filepath :: rest) r =
        multithreading_loop sys rest
          { total_word_count := r.total_word_count + 0
            printed := r.printed ++ [(filepath, 0)]
            clock := t + 5 }) := by
  have h0 : sys.ok t = true := by simpa using hok 0 (by decide)
  have h1 : sys.ok (t + 1) = true := hok 1 (by decide)
  have h2 : sys.ok (t + 1 + 1) = true := hok 2 (by decide)
  have h3 : sys.ok (t + 1 + 1 + 1) = true := hok 3 (by decide)
  have hrun : ∀ order : List Nat, run_workers order [[], [], [], []] [] = [] := by
    intro order
    unfold run_workers
    induction order with
    | nil => rfl
    | cons i rest ih =>
      have hl : word_count_thread (([[], [], [], []] : List (List Byte)).getD i []) [] = [] := by
        match i with
        | 0 => rfl
        | 1 => rfl
        | 2 => rfl
        | 3 => rfl
        | _ + 4 => rfl
      rw [List.foldl_cons, hl]
      exact ih
  have hw : word_count_multi_thread sys filepath t = .ok ([], t + 5) := by
    simp [word_count_multi_thread, hfile, NUM_THREADS, List.range_succ, spawn_workers, substr,
      h0, h1, h2, h3, hrun]
  refine ⟨hw, ?_, ?_⟩
  · intro n
    simp [top_n_frequent_words, std_sort]
  · intro rest r hr
    subst hr
    simp [multithreading_loop, hw]

theorem C9_empty_file_witness :
    (Sys.always (some []) in_order).file "empty" = some [] ∧
    (∀ k, k < NUM_THREADS → (Sys.always (some []) in_order).ok (0 + k) = true) ∧
    (word_count_multi_thread (Sys.always (some []) in_order) "empty" 0 = .ok ([], 0 + 5) ∧
    (∀ n : Int, top_n_frequent_words [] n = []) ∧
    (∀ (rest : List Path) (r : Report), r.clock = 0 →
      multithreading_loop (Sys.always (some []) in_order) ("empty" :: rest) r =
        multithreading_loop (Sys.always (some []) in_order) rest
          { total_word_count := r.total_word_count + 0
            printed := r.printed ++ [("empty", 0)]
            clock := 0 + 5 })) :=
  ⟨rfl, fun _ _ => rfl, C9_empty_file (Sys.always (some []) in_order) "empty" 0 rfl
    (fun _ _ => rfl)⟩

/-- C10: when the four worker threads can be created, `word_count_multi_thread`
returns, for a file with the contents `content` of length `L` and
`s = L / 4`, a well-formed map in which the value under `w` is the sum over
`i = 0..3` of the count the scan of `word_count_thread` gives `w` on the bytes
`[i*s, (i+1)*s)`, and `w` is not a key when that sum is 0.  A buffer shorter
than 4 bytes gives the empty map, and a buffer of the same length with the
same first `4*s` bytes gives a map with the same contents, in any run in which
its threads can be created. -/
theorem C10_multi_thread_sums_four_ranges (sys : Sys) (filepath : Path) (content : List Byte)
    (t : Nat) (hfile : sys.file filepath = some content)
    (hok : ∀ k, k < NUM_THREADS → sys.ok (t + k) = true) :
    ∃ m t', word_count_multi_thread sys filepath t = .ok (m, t') ∧ WordMap.wf m ∧
      (∀ w, m.find w =
        if ((List.range 4).map (fun i => (local_count (byte_range content
            (i * (content.length / 4)) ((i + 1) * (content.length / 4)))).count w)).sum = 0
        then none
        else some ((List.range 4).map (fun i => (local_count (byte_range content
            (i * (content.length / 4)) ((i + 1) * (content.length / 4)))).count w)).sum) ∧
      (content.length < 4 → m = []) ∧
      (∀ (sys' : Sys) (filepath' : Path) (content' : List Byte) (t₀ : Nat),
        sys'.file filepath' = some content' →
        (∀ k, k < NUM_THREADS → sys'.ok (t₀ + k) = true) →
        content'.length = content.length →
        content'.take (4 * (content.length / 4)) = content.take (4 * (content.length / 4)) →
        ∃ m' t'', word_count_multi_thread sys' filepath' t₀ = .ok (m', t'') ∧
          WordMap.same m m') := by
  obtain ⟨m, hm, hwf, hsame⟩ := word_count_multi_thread_ok sys filepath content hfile t hok
  have hfind : ∀ w, m.find w =
        if ((List.range 4).map (fun i => (local_count (byte_range content
            (i * (content.length / 4)) ((i + 1) * (content.length / 4)))).count w)).sum = 0
        then none
        else some ((List.range 4).map (fun i => (local_count (byte_range content
            (i * (content.length / 4)) ((i + 1) * (content.length / 4)))).count w)).sum := by
    intro w
    rw [hsame w, find_worker_maps, worker_maps_eq_byte_range, List.map_map]
    rfl
  refine ⟨m, t + 5, hm, hwf, hfind, ?_, ?_⟩
  · intro hlt
    apply WordMap.eq_nil_of_find_none
    intro w
    rw [hfind w]
    have hs : content.length / 4 = 0 := Nat.div_eq_of_lt hlt
    simp [hs, byte_range, local_count, flush, WordMap.count, WordMap.find, List.range_succ]
  · intro sys' filepath' content' t₀ hfile' hok' hlen htake
    obtain ⟨m', hm', _, hsame'⟩ :=
      word_count_multi_thread_ok sys' filepath' content' hfile' t₀ hok'
    refine ⟨m', t₀ + 5, hm', ?_⟩
    intro w
    rw [hsame w, hsame' w, worker_maps_congr content content' hlen htake]

theorem C10_multi_thread_sums_four_ranges_witness :
    (Sys.always (some (str "ab cd efg")) in_order).file "f" = some (str "ab cd efg") ∧
    (∀ k, k < NUM_THREADS → (Sys.always (some (str "ab cd efg")) in_order).ok (0 + k) = true) ∧
    (∃ m t', word_count_multi_thread (Sys.always (some (str "ab cd efg")) in_order) "f" 0 =
        .ok (m, t') ∧ WordMap.wf m ∧
      (∀ w, m.find w =
        if ((List.range 4).map (fun i => (local_count (byte_range (str "ab cd efg")
            (i * ((str "ab cd efg").length / 4))
            ((i + 1) * ((str "ab cd efg").length / 4)))).count w)).sum = 0
        then none
        else some ((List.range 4).map (fun i => (local_count (byte_range (str "ab cd efg")
            (i * ((str "ab cd efg").length / 4))
            ((i + 1) * ((str "ab cd efg").length / 4)))).count w)).sum) ∧
      ((str "ab cd efg").length < 4 → m = []) ∧
      (∀ (sys' : Sys) (filepath' : Path) (content' : List Byte) (t₀ : Nat),
        sys'.file filepath' = some content' →
        (∀ k, k < NUM_THREADS → sys'.ok (t₀ + k) = true) →
        content'.length = (str "ab cd efg").length →
        content'.take (4 * ((str "ab cd efg").length / 4)) =
          (str "ab cd efg").take (4 * ((str "ab cd efg").length / 4)) →
        ∃ m' t'', word_count_multi_thread sys' filepath' t₀ = .ok (m', t'') ∧
          WordMap.same m m')) :=
  ⟨rfl, fun _ _ => rfl,
    C10_multi_thread_sums_four_ranges (Sys.always (some (str "ab cd efg")) in_order)
      "f" (str "ab cd efg") 0 rfl (fun _ _ => rfl)⟩

end WordFreq
